import Mathlib

/-
  Verification of the prevailing-bias signal engine: the alignment,
  standardization and weighted-combination core, the rolling price
  feature extractor, the sentiment aggregator, the prediction-market
  aggregator and the divergence diagnostic.

  Time series are modelled as association lists from a date (a natural
  number) to an optional value; a `none` entry models a NaN cell of the
  underlying float table.  Branch conditions of the code (variance zero,
  weight sum zero, emptiness) are all rational-valued and hence
  decidable; values that pass through a square root or a logarithm live
  in `ℝ`.
-/

set_option autoImplicit false

namespace FinBias

/-- Calendar dates abstracted as naturals; a strictly increasing list of
dates models a pandas DatetimeIndex. -/
abbrev Date := Nat

/-- A rational-valued time series; `none` models a NaN entry. -/
abbrev SeriesQ := List (Date × Option ℚ)

/-- A real-valued time series, used for outputs whose values pass
through a square root or a logarithm. -/
abbrev SeriesR := List (Date × Option ℝ)

/-- Index of a series or of any date-keyed table. -/
def sIndex {α : Type} (s : List (Date × α)) : List Date := s.map Prod.fst

/-- Defined (non-NaN) values of a series. -/
def vals (s : SeriesQ) : List ℚ := s.filterMap Prod.snd

/-- First value stored under a key in an association list; `none` when
the key is absent. -/
def alookup {κ α : Type} [DecidableEq κ] : List (κ × α) → κ → Option α
  | [], _ => none
  | (k, v) :: rest, x => if x = k then some v else alookup rest x

/-- Mean of a list of rationals in the pandas sense: NaN entries have
already been removed, the empty mean is NaN (`none`). -/
def qmean (xs : List ℚ) : Option ℚ :=
  if xs.isEmpty then none else some (xs.sum / xs.length)

/-- Population variance (`ddof=0`) of a list of rationals; `none` models
the NaN returned by pandas on an empty column.  The standard deviation
of the code is the square root of this quantity, so `std == 0` holds
exactly when the variance is `0` and `std` is NaN exactly when the
variance is `none`. -/
def popVar (xs : List ℚ) : Option ℚ :=
  (qmean xs).map (fun m => (xs.map (fun x => (x - m) ^ 2)).sum / xs.length)

/-- NaN-propagating addition of float cells. -/
noncomputable def oadd (a b : Option ℝ) : Option ℝ :=
  match a, b with
  | some x, some y => some (x + y)
  | _, _ => none

/-- NaN-propagating subtraction of float cells. -/
noncomputable def osub (a b : Option ℝ) : Option ℝ :=
  match a, b with
  | some x, some y => some (x - y)
  | _, _ => none

/-- NaN-propagating multiplication of a float cell by a constant. -/
noncomputable def omulC (a : Option ℝ) (w : ℝ) : Option ℝ := a.map (fun x => x * w)

/-- NaN-propagating division of a float cell by a constant. -/
noncomputable def odivC (a : Option ℝ) (w : ℝ) : Option ℝ := a.map (fun x => x / w)

/-- Shared body of the two `_zscore` helpers: mean and population
standard deviation are taken over the defined entries; when the standard
deviation is `0` or NaN the whole index is mapped to `0.0`, otherwise
every defined cell is standardized and NaN cells stay NaN. -/
noncomputable def zscoreCore (s : SeriesQ) : SeriesR :=
  match qmean (vals s), popVar (vals s) with
  | some m, some v =>
    if v = 0 then s.map (fun p => (p.1, some 0))
    else s.map (fun p => (p.1, p.2.map (fun x => ((x : ℝ) - (m : ℝ)) / Real.sqrt (v : ℝ))))
  | _, _ => s.map (fun p => (p.1, some 0))

/-- `_zscore` of `model/prevailing_bias_model.py`: an explicitly empty
series is returned as an empty series before any statistic is taken. -/
noncomputable def zscoreModel (s : SeriesQ) : SeriesR :=
  if s.isEmpty then [] else zscoreCore s

/-- `_zscore` of `price/price_features.py`: no emptiness guard, the NaN
standard deviation of an empty series selects the all-zeros branch. -/
noncomputable def zscorePrice (s : SeriesQ) : SeriesR :=
  zscoreCore s

/-- Intersection of the date indices of a family of series, in the
order of the first one; this is the row index of an inner-join concat. -/
def innerIndexP {α : Type} (ss : List (List (Date × α))) : List Date :=
  match ss with
  | [] => []
  | s :: rest => (sIndex s).filter (fun d => rest.all (fun t => d ∈ sIndex t))

/-- A date-indexed table of float cells with named columns; the cells of
a row are listed in column order. -/
structure Frame where
  cols : List String
  rows : List (Date × List (Option ℝ))

/-- Inner-join concatenation of named series into a table
(`pd.concat(values, axis=1, join="inner")`). -/
def innerConcat (cs : List (String × SeriesR)) : Frame :=
  ⟨cs.map Prod.fst,
    (innerIndexP (cs.map Prod.snd)).map
      (fun d => (d, cs.map (fun p => (alookup p.2 d).join)))⟩

/-- `DataFrame.dropna(how="all")`: drop the rows whose cells are all NaN. -/
def dropnaAll (F : Frame) : Frame :=
  ⟨F.cols, F.rows.filter (fun r => r.2.any Option.isSome)⟩

/-- `DataFrame.assign`: append one named column; the new column is
already aligned with the row index. -/
def Frame.assign (F : Frame) (name : String) (vs : List (Option ℝ)) : Frame :=
  ⟨F.cols ++ [name], List.zipWith (fun r v => (r.1, r.2 ++ [v])) F.rows vs⟩

/-- Cell of a row under a column name. -/
def colVal (cols : List String) (r : List (Option ℝ)) (c : String) : Option ℝ :=
  (alookup (cols.zip r) c).join

/-- One optional component of `align_and_standardize`: an absent
component contributes nothing, a present one contributes its z-scored
series under its fixed column name. -/
noncomputable def optComp (o : Option SeriesQ) (name : String) : List (String × SeriesR) :=
  match o with
  | none => []
  | some s => [(name, zscoreModel s)]

/-- `align_and_standardize` of `model/prevailing_bias_model.py`:
z-score each present component, inner-join them on their common dates
and drop all-NaN rows; with no component at all, an empty frame. -/
noncomputable def align_and_standardize (pb nb sb ob mb : Option SeriesQ) : Frame :=
  let components :=
    optComp pb "price_bias_z" ++ optComp nb "news_bias_z" ++ optComp sb "social_bias_z" ++
      optComp ob "options_bias_z" ++ optComp mb "polymarket_bias_z"
  if components.isEmpty then ⟨[], []⟩
  else dropnaAll (innerConcat components)

/-- The default weight map of `compute_prevailing_bias`. -/
def default_weights : List (String × ℚ) :=
  [("price", 0.4), ("news", 0.2), ("social", 0.15), ("options", 0.10), ("polymarket", 0.15)]

/-- `dict.get(key, 0.0)`. -/
def wget (wm : List (String × ℚ)) (k : String) : ℚ := (alookup wm k).getD 0

/-- The Python idiom `weights or default_weights`: both `None` and the
empty dict are falsy and fall back to the default weights. -/
def resolveWeights (w : Option (List (String × ℚ))) : List (String × ℚ) :=
  match w with
  | none => default_weights
  | some ws => if ws.isEmpty then default_weights else ws

/-- The fixed pairing of weight keys with z-scored column names. -/
def zPairs : List (String × String) :=
  [("price", "price_bias_z"), ("news", "news_bias_z"), ("social", "social_bias_z"),
    ("options", "options_bias_z"), ("polymarket", "polymarket_bias_z")]

/-- Weights of the components whose column survived into the aligned
frame, keyed by column name (`available_weights` in the code). -/
def availableWeights (cols : List String) (wm : List (String × ℚ)) : List (String × ℚ) :=
  zPairs.filterMap (fun kc => if kc.2 ∈ cols then some (kc.2, wget wm kc.1) else none)

/-- The weighted sum of one row over the given column weights, starting
from `0` as Python's `sum` does; NaN cells propagate. -/
noncomputable def rowWeighted (cols : List String) (r : List (Option ℝ))
    (avail : List (String × ℚ)) : Option ℝ :=
  avail.foldl (fun acc cw => oadd acc (omulC (colVal cols r cw.1) ((cw.2 : ℚ) : ℝ))) (some 0)

/-- `compute_prevailing_bias` of `model/prevailing_bias_model.py`. -/
noncomputable def compute_prevailing_bias (pb nb sb ob mb : Option SeriesQ)
    (weights : Option (List (String × ℚ))) : Frame :=
  let weight_map := resolveWeights weights
  let features := align_and_standardize pb nb sb ob mb
  if features.rows.isEmpty then features
  else
    let available := availableWeights features.cols weight_map
    let weight_sum := (available.map Prod.snd).sum
    if weight_sum = 0 then features
    else
      Frame.assign features "prevailing_bias"
        (features.rows.map (fun r => odivC (rowWeighted features.cols r.2 available) ((weight_sum : ℚ) : ℝ)))

/-- A weight list rescaled by the sum of its weights, as in the spec's
renormalization rule. -/
def renormWeights (l : List (String × ℚ)) : List (String × ℚ) :=
  l.map (fun cw => (cw.1, cw.2 / (l.map Prod.snd).sum))

/-- NaN-propagating addition of rational cells. -/
def qoadd (a b : Option ℚ) : Option ℚ :=
  match a, b with
  | some x, some y => some (x + y)
  | _, _ => none

/-- NaN-propagating multiplication of a rational cell by a constant. -/
def qomulC (a : Option ℚ) (w : ℚ) : Option ℚ := a.map (fun x => x * w)

/-- `compute_polymarket_bias` of `prediction_markets/polymarket.py`:
inner-join all market series, recenter every cell by `-0.5`, and take
the weighted sum of the recentered columns (uniform weight `1.0` per
market when no weights are supplied); empty dict, empty intersection and
zero weight sum all yield the empty series. -/
def compute_polymarket_bias (series_dict : List (String × SeriesQ))
    (weights : Option (List (String × ℚ))) : SeriesQ :=
  if series_dict.isEmpty then []
  else
    let idx := innerIndexP (series_dict.map Prod.snd)
    if idx.isEmpty then []
    else
      let w := match weights with
        | none => series_dict.map (fun p => (p.1, (1 : ℚ)))
        | some ws => ws
      let aligned_weights := series_dict.map (fun p => (p.1, wget w p.1))
      let weight_sum := (aligned_weights.map Prod.snd).sum
      if weight_sum = 0 then []
      else
        idx.map (fun d =>
          (d, series_dict.foldl (fun acc p =>
            qoadd acc (qomulC (((alookup p.2 d).join).map (fun x => x - 0.5)) (wget w p.1)))
            (some 0)))

/-- A raw scored-item table: a schema (its column names) together with
its rows; each row logically carries its date, channel and sentiment
fields (the function below only reads the rows once the schema has
passed validation). -/
structure RawFrame where
  cols : List String
  rows : List (Date × String × ℚ)

/-- The columns `aggregate_daily_sentiment` requires. -/
def requiredCols : List String := ["date", "channel", "sentiment"]

/-- A pivoted daily-sentiment table: one column per channel, one row per
date; a missing (date, channel) group is a NaN cell. -/
structure PivotFrame where
  channels : List String
  prows : List (Date × List (Option ℚ))
deriving DecidableEq

/-- Distinct channels of the raw rows, in sorted order as a pandas pivot
produces them. -/
def channelsOf (rows : List (Date × String × ℚ)) : List String :=
  ((rows.map (fun r => r.2.1)).dedup).mergeSort (fun a b => a ≤ b)

/-- Distinct dates of the raw rows, in sorted order. -/
def pivotDates (rows : List (Date × String × ℚ)) : List Date :=
  ((rows.map Prod.fst).dedup).mergeSort (fun a b => a ≤ b)

/-- Mean sentiment of one (date, channel) group. -/
def groupMean (rows : List (Date × String × ℚ)) (d : Date) (c : String) : Option ℚ :=
  qmean ((rows.filter (fun r => r.1 = d ∧ r.2.1 = c)).map (fun r => r.2.2))

/-- `aggregate_daily_sentiment` of `sentiment/aggregation.py`: an empty
table short-circuits to an empty result, then the schema is validated
and the missing required columns are reported as the error; otherwise
group by (date, channel), average, and pivot. -/
def aggregate_daily_sentiment (df : RawFrame) : Except (List String) PivotFrame :=
  if df.rows.isEmpty then .ok ⟨[], []⟩
  else
    let missing := requiredCols.filter (fun c => c ∉ df.cols)
    if missing.isEmpty then
      .ok ⟨channelsOf df.rows,
        (pivotDates df.rows).map
          (fun d => (d, (channelsOf df.rows).map (fun c => groupMean df.rows d c)))⟩
    else .error missing

/-- Sorted merge of two date indices: the union index of an outer-join
alignment of two series with strictly increasing dates. -/
def mergeUnion (a b : List Date) : List Date :=
  match a, b with
  | [], b => b
  | a, [] => a
  | x :: xs, y :: ys =>
    if x < y then x :: mergeUnion xs (y :: ys)
    else if y < x then y :: mergeUnion (x :: xs) ys
    else x :: mergeUnion xs ys
termination_by a.length + b.length

/-- Value of a series once aligned onto a larger index: NaN both where
the date was absent and where it held a NaN cell. -/
def alignedAt (s : SeriesQ) (d : Date) : Option ℚ := (alookup s d).join

/-- `Series.fillna(m)` for one cell. -/
def fillWithMean (v m : Option ℚ) : Option ℚ :=
  match v with
  | some x => some x
  | none => m

/-- `combine_sentiment_scores` of `sentiment/aggregation.py`: outer-join
align the two channel series, fill the NaN cells of each aligned series
with that aligned series' own mean, and combine with weight
`weight_news` on news. -/
def combine_sentiment_scores (news social : SeriesQ) (weight_news : ℚ := 0.6) : SeriesQ :=
  let idx := mergeUnion (sIndex news) (sIndex social)
  let news_aligned : SeriesQ := idx.map (fun d => (d, alignedAt news d))
  let social_aligned : SeriesQ := idx.map (fun d => (d, alignedAt social d))
  let news_filled := news_aligned.map
    (fun p => (p.1, fillWithMean p.2 (qmean (vals news_aligned))))
  let social_filled := social_aligned.map
    (fun p => (p.1, fillWithMean p.2 (qmean (vals social_aligned))))
  List.zipWith
    (fun p q => (p.1, qoadd (qomulC p.2 weight_news) (qomulC q.2 (1 - weight_news))))
    news_filled social_filled

/-- Mean of a list of float values (`Series.mean` after NaN removal). -/
noncomputable def rmean (xs : List ℝ) : ℝ := xs.sum / xs.length

/-- Joint (unguarded) column z-score of `compute_polymarket_divergence`:
`(aligned - aligned.mean()) / aligned.std(ddof=0)` on one column; NaN
cells are skipped by the statistics and stay NaN in the output.  When
the standard deviation is zero the float code produces infinities or
NaNs where Lean's `x / 0 = 0` convention yields zeros; no claim settled
here exercises that branch. -/
noncomputable def zColumn (v : List (Option ℝ)) : List (Option ℝ) :=
  let xs := v.filterMap id
  let m := rmean xs
  let sd := Real.sqrt ((xs.map (fun x => (x - m) ^ 2)).sum / xs.length)
  v.map (fun c => c.map (fun x => (x - m) / sd))

/-- `Series.rolling(window, min_periods).mean()`: at each position the
mean of the defined cells among the up-to-`window` trailing ones,
defined only when at least `minp` of them are present. -/
noncomputable def rollingMeanMin (window minp : ℕ) (v : List (Option ℝ)) : List (Option ℝ) :=
  (List.range v.length).map (fun i =>
    let xs := ((v.take (i + 1)).drop (i + 1 - window)).filterMap id
    if minp ≤ xs.length then some (xs.sum / xs.length) else none)

/-- `compute_polymarket_divergence` of `model/fragility.py`: empty
inputs and an empty inner-join alignment short-circuit to the empty
series; otherwise both aligned columns are jointly z-scored, subtracted,
and smoothed by a rolling mean when `window > 1`. -/
noncomputable def compute_polymarket_divergence (prevailing polymarket : SeriesR)
    (window : ℕ := 20) : SeriesR :=
  if prevailing.isEmpty ∨ polymarket.isEmpty then []
  else
    let idx := innerIndexP [prevailing, polymarket]
    if idx.isEmpty then []
    else
      let zp := zColumn (idx.map (fun d => (alookup prevailing d).join))
      let zq := zColumn (idx.map (fun d => (alookup polymarket d).join))
      let divergence := List.zipWith osub zp zq
      let smoothed :=
        if 1 < window then rollingMeanMin window (max 1 (window / 2)) divergence
        else divergence
      List.zipWith (fun d v => (d, v)) idx smoothed

/-- One entry of the rolling trend slope: NaN until a full trailing
window is available, then the centered least-squares slope of the log
prices over the integer axis `0..window-1`, scaled by the window
length; a zero x-denominator is guarded with NaN as in the code. -/
noncomputable def trendEntry (logp : List ℝ) (window : ℕ) (i : ℕ) : Option ℝ :=
  if i + 1 < window then none
  else
    let y := (logp.drop (i + 1 - window)).take window
    let x_mean : ℚ := ((List.range window).map (fun (j : ℕ) => (j : ℚ))).sum / window
    let y_mean : ℝ := y.sum / window
    let denom : ℚ := ((List.range window).map (fun (j : ℕ) => ((j : ℚ) - x_mean) ^ 2)).sum
    if denom = 0 then none
    else
      some ((((List.range window).zip y).map
        (fun p => ((p.1 : ℝ) - (x_mean : ℝ)) * (p.2 - y_mean))).sum / (denom : ℝ) * window)

/-- `rolling_trend_slope` of `price/price_features.py`. -/
noncomputable def rolling_trend_slope (close : List (Date × ℚ)) (window : ℕ := 60) :
    List (Date × Option ℝ) :=
  let logp := close.map (fun p => Real.log ((p.2 : ℝ)))
  close.enum.map (fun q => (q.2.1, trendEntry logp window q.1))

/-- Ordinary-least-squares slope of the points `(j, y j)` for `j < n`,
in the textbook centered form the spec describes. -/
noncomputable def specOlsSlope (n : ℕ) (y : ℕ → ℝ) : ℝ :=
  let xbar : ℝ := (∑ j in Finset.range n, (j : ℝ)) / n
  let ybar : ℝ := (∑ j in Finset.range n, y j) / n
  (∑ j in Finset.range n, ((j : ℝ) - xbar) * (y j - ybar)) /
    (∑ j in Finset.range n, ((j : ℝ) - xbar) ^ 2)

theorem zscoreCore_degenerate (s : SeriesQ)
    (h : popVar (vals s) = some 0 ∨ popVar (vals s) = none) :
    zscoreCore s = s.map (fun p => (p.1, some (0 : ℝ))) := by
  rcases h with h | h
  · rw [popVar, Option.map_eq_some'] at h
    rcases h with ⟨m, hm, hv⟩
    unfold zscoreCore popVar
    rw [hm]
    simp only [Option.map_some']
    simp [hv]
  · rw [popVar, Option.map_eq_none'] at h
    unfold zscoreCore popVar
    rw [h]

/-- C1: z-score standardization — both the combiner's and the price
extractor's — sends a series whose standard deviation is zero or
undefined to the all-zeros series over the same index, never to NaN. -/
theorem c1_zscore_degenerate_all_zeros (s : SeriesQ)
    (h : popVar (vals s) = some 0 ∨ popVar (vals s) = none) :
    zscoreModel s = s.map (fun p => (p.1, some (0 : ℝ))) ∧
      zscorePrice s = s.map (fun p => (p.1, some (0 : ℝ))) := by
  constructor
  · unfold zscoreModel
    rcases he : s.isEmpty with _ | _
    · simpa [he] using zscoreCore_degenerate s h
    · have : s = [] := by simpa [List.isEmpty_iff] using he
      simp [this]
  · exact zscoreCore_degenerate s h

/-- C1 witness: the constant series with value `3` on dates `0, 1` has
variance `0` and is z-scored to zeros on both paths. -/
theorem c1_witness :
    (popVar (vals [(0, some 3), (1, some 3)]) = some 0 ∨
        popVar (vals [(0, some 3), (1, some 3)]) = none) ∧
      zscoreModel [(0, some 3), (1, some 3)] = [(0, some 0), (1, some 0)] ∧
      zscorePrice [(0, some 3), (1, some 3)] = [(0, some 0), (1, some 0)] := by
  have hvar : popVar (vals [(0, some 3), (1, some 3)]) = some 0 := by
    norm_num [popVar, qmean, vals, List.filterMap_cons]
  refine ⟨Or.inl hvar, ?_⟩
  have h := c1_zscore_degenerate_all_zeros [(0, some 3), (1, some 3)] (Or.inl hvar)
  simpa using h

theorem mem_optComp_fst {o : Option SeriesQ} {n x : String}
    (h : x ∈ (optComp o n).map Prod.fst) : x = n := by
  cases o with
  | none => simp [optComp] at h
  | some s => simpa [optComp] using h

theorem align_cols_subset (pb nb sb ob mb : Option SeriesQ) :
    (align_and_standardize pb nb sb ob mb).cols ⊆
      ["price_bias_z", "news_bias_z", "social_bias_z", "options_bias_z", "polymarket_bias_z"] := by
  intro x hx
  rcases pb <;> rcases nb <;> rcases sb <;> rcases ob <;> rcases mb <;>
      simp [align_and_standardize, optComp, dropnaAll, innerConcat] at hx ⊢ <;>
    tauto

/-- C10: supplying the empty weight map is the same call as supplying no
weights at all: the default weights are used and the zero-weight-sum
fallback is not taken any more than it would be by default. -/
theorem c10_empty_weight_map_is_default (pb nb sb ob mb : Option SeriesQ) :
    compute_prevailing_bias pb nb sb ob mb (some []) =
      compute_prevailing_bias pb nb sb ob mb none := rfl

/-- C3: when the weights of the components present in the aligned frame
sum to zero, `compute_prevailing_bias` returns the aligned frame itself,
which carries no `prevailing_bias` column; no error path exists. -/
theorem c3_zero_weight_sum_returns_features (pb nb sb ob mb : Option SeriesQ)
    (w : Option (List (String × ℚ)))
    (h : ((availableWeights (align_and_standardize pb nb sb ob mb).cols
        (resolveWeights w)).map Prod.snd).sum = 0) :
    compute_prevailing_bias pb nb sb ob mb w = align_and_standardize pb nb sb ob mb ∧
      "prevailing_bias" ∉ (align_and_standardize pb nb sb ob mb).cols := by
  constructor
  · unfold compute_prevailing_bias
    by_cases he : (align_and_standardize pb nb sb ob mb).rows.isEmpty = true
    · simp [he]
    · simp [he, h]
  · intro hc
    have hmem := align_cols_subset pb nb sb ob mb hc
    simp at hmem

/-- C3 witness: a single price component whose supplied weight map
assigns weight `0` to price. -/
theorem c3_witness :
    ((availableWeights (align_and_standardize (some [(0, some 1)]) none none none none).cols
          (resolveWeights (some [("price", 0)]))).map Prod.snd).sum = 0 ∧
      compute_prevailing_bias (some [(0, some 1)]) none none none none (some [("price", 0)]) =
        align_and_standardize (some [(0, some 1)]) none none none none ∧
      "prevailing_bias" ∉ (align_and_standardize (some [(0, some 1)]) none none none none).cols := by
  have h0 : ((availableWeights (align_and_standardize (some [(0, some 1)]) none none none none).cols
      (resolveWeights (some [("price", 0)]))).map Prod.snd).sum = 0 := by
    simp [availableWeights, zPairs, wget, alookup, resolveWeights, align_and_standardize,
      optComp, dropnaAll, innerConcat, List.filterMap_cons]
  exact ⟨h0, c3_zero_weight_sum_returns_features (some [(0, some 1)]) none none none none
    (some [("price", 0)]) h0⟩

/-- C4 as stated is refuted: a row may survive alignment while missing a
value in one surviving column.  The price component keeps its NaN on
date `2` through the non-degenerate z-score branch, yet the row is kept
because the news cell on date `2` is defined, so `dropna(how="all")`
does not remove it. -/
theorem c4_counterexample :
    ¬ (∀ r ∈ (align_and_standardize (some [(1, some 0), (2, none), (3, some 2)])
          (some [(1, some 5), (2, some 5), (3, some 5)]) none none none).rows,
        ∀ v ∈ r.2, v.isSome = true) := by
  intro hall
  have hrows : (align_and_standardize (some [(1, some 0), (2, none), (3, some 2)])
      (some [(1, some 5), (2, some 5), (3, some 5)]) none none none).rows =
      [(1, [some (-1), some 0]), (2, [none, some 0]), (3, [some 1, some 0])] := by
    norm_num [align_and_standardize, optComp, dropnaAll, innerConcat, innerIndexP, sIndex,
      alookup, zscoreModel, zscoreCore, qmean, popVar, vals, List.filterMap_cons,
      Real.sqrt_one]
  have h2 := hall (2, [none, some 0]) (by rw [hrows]; simp)
  have := h2 none (by simp)
  simp at this

/-- C4 amended: every row of an aligned frame has a defined value in at
least one surviving column — the rows whose cells are all missing are
dropped. -/
theorem c4_surviving_rows_have_some_value (pb nb sb ob mb : Option SeriesQ)
    (r : Date × List (Option ℝ))
    (hr : r ∈ (align_and_standardize pb nb sb ob mb).rows) :
    ∃ v ∈ r.2, v.isSome = true := by
  unfold align_and_standardize at hr
  by_cases h : (optComp pb "price_bias_z" ++ optComp nb "news_bias_z" ++
      optComp sb "social_bias_z" ++ optComp ob "options_bias_z" ++
      optComp mb "polymarket_bias_z").isEmpty = true
  · rw [if_pos h] at hr
    simp at hr
  · rw [if_neg h] at hr
    simp only [dropnaAll] at hr
    have hp := (List.mem_filter.mp hr).2
    simpa [List.any_eq_true] using hp

/-- C4 amended witness: the single degenerate price component yields the
frame with the one row `(0, [some 0])`, which has a defined cell. -/
theorem c4_amended_witness :
    ((0 : Date), [some (0 : ℝ)]) ∈
        (align_and_standardize (some [(0, some 1)]) none none none none).rows ∧
      ∃ v ∈ [some (0 : ℝ)], v.isSome = true := by
  have hmem : ((0 : Date), [some (0 : ℝ)]) ∈
      (align_and_standardize (some [(0, some 1)]) none none none none).rows := by
    norm_num [align_and_standardize, optComp, dropnaAll, innerConcat, innerIndexP, sIndex,
      alookup, zscoreModel, zscoreCore, qmean, popVar, vals, List.filterMap_cons]
  exact ⟨hmem, c4_surviving_rows_have_some_value (some [(0, some 1)]) none none none none
    ((0 : Date), [some (0 : ℝ)]) hmem⟩

theorem sum_map_div (l : List ℚ) (W : ℚ) : (l.map (fun x => x / W)).sum = l.sum / W := by
  induction l with
  | nil => simp
  | cons hd tl ih => simp [ih, add_div]

theorem renorm_sum_one (l : List (String × ℚ)) (h : (l.map Prod.snd).sum ≠ 0) :
    ((renormWeights l).map Prod.snd).sum = 1 := by
  unfold renormWeights
  rw [List.map_map]
  have hcomp : (l.map (Prod.snd ∘ fun cw : String × ℚ => (cw.1, cw.2 / (l.map Prod.snd).sum))) =
      (l.map Prod.snd).map (fun x => x / (l.map Prod.snd).sum) := by
    rw [List.map_map]
    rfl
  rw [hcomp, sum_map_div, div_self h]

theorem odiv_step (acc v : Option ℝ) (w W : ℚ) :
    odivC (oadd acc (omulC v ((w : ℚ) : ℝ))) ((W : ℚ) : ℝ) =
      oadd (odivC acc ((W : ℚ) : ℝ)) (omulC v ((w / W : ℚ) : ℝ)) := by
  cases acc with
  | none => cases v <;> simp [oadd, omulC, odivC]
  | some x =>
    cases v with
    | none => simp [oadd, omulC, odivC]
    | some y =>
      simp only [oadd, omulC, odivC, Option.map_some']
      push_cast
      rw [add_div, mul_div_assoc]

theorem foldl_weighted_div (cols : List String) (r : List (Option ℝ)) (W : ℚ)
    (l : List (String × ℚ)) :
    ∀ acc : Option ℝ,
      odivC (l.foldl (fun a cw => oadd a (omulC (colVal cols r cw.1) ((cw.2 : ℚ) : ℝ))) acc)
          ((W : ℚ) : ℝ) =
        l.foldl (fun a cw => oadd a (omulC (colVal cols r cw.1) ((cw.2 / W : ℚ) : ℝ)))
          (odivC acc ((W : ℚ) : ℝ)) := by
  induction l with
  | nil => intro acc; rfl
  | cons hd tl ih =>
    intro acc
    simp only [List.foldl_cons]
    rw [ih, odiv_step]

theorem rowWeighted_renorm (cols : List String) (r : List (Option ℝ))
    (l : List (String × ℚ)) :
    odivC (rowWeighted cols r l) (((l.map Prod.snd).sum : ℚ) : ℝ) =
      rowWeighted cols r (renormWeights l) := by
  unfold rowWeighted renormWeights
  rw [List.foldl_map, foldl_weighted_div]
  have h0 : odivC (some 0) (((l.map Prod.snd).sum : ℚ) : ℝ) = some 0 := by
    simp [odivC]
  rw [h0]

theorem prevailing_renormalized (pb nb sb ob mb : Option SeriesQ)
    (w : Option (List (String × ℚ)))
    (hW : ((availableWeights (align_and_standardize pb nb sb ob mb).cols
        (resolveWeights w)).map Prod.snd).sum ≠ 0)
    (hne : (align_and_standardize pb nb sb ob mb).rows ≠ []) :
    compute_prevailing_bias pb nb sb ob mb w =
      Frame.assign (align_and_standardize pb nb sb ob mb) "prevailing_bias"
        ((align_and_standardize pb nb sb ob mb).rows.map
          (fun r => rowWeighted (align_and_standardize pb nb sb ob mb).cols r.2
            (renormWeights (availableWeights (align_and_standardize pb nb sb ob mb).cols
              (resolveWeights w))))) := by
  have he : ¬ ((align_and_standardize pb nb sb ob mb).rows.isEmpty = true) := by
    simpa [List.isEmpty_iff] using hne
  simp only [compute_prevailing_bias]
  rw [if_neg he, if_neg hW]
  apply congrArg
  apply List.map_congr_left
  intro r _
  exact rowWeighted_renorm _ _ _

/-- C2: with a proper subset of components present, the composite column
is the weighted sum of the present z-scored columns divided by the sum
of the weights actually used — equivalently, the present weights
renormalized to sum to `1`; for the price-and-news subset under default
weights the effective weights are `0.4/0.6 = 2/3` and `0.2/0.6 = 1/3`. -/
theorem c2_subset_weights_renormalized :
    (∀ (pb nb sb ob mb : Option SeriesQ) (w : Option (List (String × ℚ))),
      ((availableWeights (align_and_standardize pb nb sb ob mb).cols
          (resolveWeights w)).map Prod.snd).sum ≠ 0 →
      (align_and_standardize pb nb sb ob mb).rows ≠ [] →
      compute_prevailing_bias pb nb sb ob mb w =
        Frame.assign (align_and_standardize pb nb sb ob mb) "prevailing_bias"
          ((align_and_standardize pb nb sb ob mb).rows.map
            (fun r => rowWeighted (align_and_standardize pb nb sb ob mb).cols r.2
              (renormWeights (availableWeights (align_and_standardize pb nb sb ob mb).cols
                (resolveWeights w))))) ∧
        ((renormWeights (availableWeights (align_and_standardize pb nb sb ob mb).cols
            (resolveWeights w))).map Prod.snd).sum = 1) ∧
    (∀ p n : SeriesQ,
      compute_prevailing_bias (some p) (some n) none none none none =
        (if (align_and_standardize (some p) (some n) none none none).rows.isEmpty then
          align_and_standardize (some p) (some n) none none none
        else
          Frame.assign (align_and_standardize (some p) (some n) none none none) "prevailing_bias"
            ((align_and_standardize (some p) (some n) none none none).rows.map
              (fun r => rowWeighted (align_and_standardize (some p) (some n) none none none).cols
                r.2 [("price_bias_z", 2 / 3), ("news_bias_z", 1 / 3)])))) ∧
    wget default_weights "price" / (wget default_weights "price" + wget default_weights "news") =
      2 / 3 ∧
    wget default_weights "news" / (wget default_weights "price" + wget default_weights "news") =
      1 / 3 := by
  refine ⟨fun pb nb sb ob mb w hW hne =>
    ⟨prevailing_renormalized pb nb sb ob mb w hW hne, renorm_sum_one _ hW⟩, ?_, ?_, ?_⟩
  · intro p n
    by_cases he : (align_and_standardize (some p) (some n) none none none).rows.isEmpty = true
    · rw [if_pos he]
      have hnil : (align_and_standardize (some p) (some n) none none none).rows = [] := by
        simpa [List.isEmpty_iff] using he
      simp [compute_prevailing_bias, hnil]
    · rw [if_neg he]
      have hne : (align_and_standardize (some p) (some n) none none none).rows ≠ [] := by
        simpa [List.isEmpty_iff] using he
      have hcols : (align_and_standardize (some p) (some n) none none none).cols =
          ["price_bias_z", "news_bias_z"] := rfl
      have havail : availableWeights
          ((align_and_standardize (some p) (some n) none none none).cols)
          (resolveWeights none) = [("price_bias_z", 0.4), ("news_bias_z", 0.2)] := by
        rw [hcols]
        simp [availableWeights, zPairs, wget, alookup, resolveWeights, default_weights,
          List.filterMap_cons]
      have hW : ((availableWeights (align_and_standardize (some p) (some n) none none none).cols
          (resolveWeights none)).map Prod.snd).sum ≠ 0 := by
        rw [havail]
        norm_num
      have h := prevailing_renormalized (some p) (some n) none none none none hW hne
      rw [h, havail]
      have hren : renormWeights [("price_bias_z", (0.4 : ℚ)), ("news_bias_z", 0.2)] =
          [("price_bias_z", 2 / 3), ("news_bias_z", 1 / 3)] := by
        norm_num [renormWeights]
      rw [hren]
  · simp [wget, alookup, default_weights] <;> norm_num
  · simp [wget, alookup, default_weights] <;> norm_num

/-- C2 witness: two one-point degenerate components on the same date;
the present subset is price and news and both hypotheses hold. -/
theorem c2_witness :
    ((availableWeights (align_and_standardize (some [(0, some 1)]) (some [(0, some 1)])
        none none none).cols (resolveWeights none)).map Prod.snd).sum ≠ 0 ∧
      (align_and_standardize (some [(0, some 1)]) (some [(0, some 1)]) none none none).rows ≠
        [] ∧
      (compute_prevailing_bias (some [(0, some 1)]) (some [(0, some 1)]) none none none none =
          Frame.assign (align_and_standardize (some [(0, some 1)]) (some [(0, some 1)])
              none none none) "prevailing_bias"
            ((align_and_standardize (some [(0, some 1)]) (some [(0, some 1)])
                none none none).rows.map
              (fun r => rowWeighted (align_and_standardize (some [(0, some 1)])
                  (some [(0, some 1)]) none none none).cols r.2
                (renormWeights (availableWeights (align_and_standardize (some [(0, some 1)])
                    (some [(0, some 1)]) none none none).cols (resolveWeights none))))) ∧
        ((renormWeights (availableWeights (align_and_standardize (some [(0, some 1)])
            (some [(0, some 1)]) none none none).cols (resolveWeights none))).map
          Prod.snd).sum = 1) := by
  have h1 : ((availableWeights (align_and_standardize (some [(0, some 1)]) (some [(0, some 1)])
      none none none).cols (resolveWeights none)).map Prod.snd).sum ≠ 0 := by
    simp [availableWeights, zPairs, wget, alookup, resolveWeights, default_weights,
      align_and_standardize, optComp, dropnaAll, innerConcat, List.filterMap_cons] <;>
      norm_num
  have h2 : (align_and_standardize (some [(0, some 1)]) (some [(0, some 1)])
      none none none).rows ≠ [] := by
    norm_num [align_and_standardize, optComp, dropnaAll, innerConcat, innerIndexP, sIndex,
      alookup, zscoreModel, zscoreCore, qmean, popVar, vals, List.filterMap_cons]
  exact ⟨h1, h2,
    c2_subset_weights_renormalized.1 (some [(0, some 1)]) (some [(0, some 1)]) none none none
      none h1 h2⟩

theorem alookup_of_const {c : Option ℚ} (s : SeriesQ) (h : ∀ p ∈ s, p.2 = c) (d : Date)
    (hd : d ∈ sIndex s) : alookup s d = some c := by
  induction s with
  | nil => simp [sIndex] at hd
  | cons hd' tl ih =>
    by_cases he : d = hd'.1
    · have := h hd' (by simp)
      simp [alookup, he, this]
    · have hmem : d ∈ sIndex tl := by
        rcases (by simpa [sIndex] using hd : d = hd'.1 ∨ d ∈ List.map Prod.fst tl) with h1 | h1
        · exact absurd h1 he
        · simpa [sIndex] using h1
      simpa [alookup, he] using ih (fun p hp => h p (List.mem_cons_of_mem _ hp)) hmem

/-- C7: the polymarket aggregator recenters each aligned series by
subtracting `0.5` and applies no z-score standardization: a single
market whose series is constantly `0.7`, with no weights supplied, maps
to the constant series `0.2` over the same dates. -/
theorem c7_polymarket_recenters_without_zscore (name : String) (s : SeriesQ)
    (h : ∀ p ∈ s, p.2 = some 0.7) :
    compute_polymarket_bias [(name, s)] none = s.map (fun p => (p.1, some 0.2)) := by
  cases s with
  | nil => rfl
  | cons hd tl =>
    have hidx : innerIndexP ([(name, hd :: tl)].map Prod.snd) = sIndex (hd :: tl) := by
      simp [innerIndexP]
    unfold compute_polymarket_bias
    rw [hidx]
    have hne : ¬ ((sIndex (hd :: tl)).isEmpty = true) := by simp [sIndex]
    have hw : wget [(name, (1 : ℚ))] name = 1 := by
      simp [wget, alookup]
    simp only [List.isEmpty_cons, Bool.false_eq_true, if_false, List.map_cons, List.map_nil]
    rw [if_neg hne]
    rw [if_neg (by simp [wget, alookup])]
    have hmap : ∀ d ∈ sIndex (hd :: tl),
        ((d, List.foldl (fun acc p =>
            qoadd acc (qomulC (((alookup p.2 d).join).map (fun x => x - 0.5))
              (wget [(name, (1 : ℚ))] p.1))) (some 0)
            [(name, hd :: tl)]) : Date × Option ℚ) = (d, some 0.2) := by
      intro d hd2
      have hv : alookup (hd :: tl) d = some (some 0.7) := alookup_of_const (hd :: tl) h d hd2
      simp only [List.foldl_cons, List.foldl_nil, hv, hw]
      norm_num [qoadd, qomulC, wget, alookup]
    rw [List.map_congr_left hmap]
    simp [sIndex, List.map_map]

/-- C7 witness: a concrete constant-`0.7` series over two dates. -/
theorem c7_witness :
    (∀ p ∈ [((5 : Date), some (0.7 : ℚ)), (9, some 0.7)], p.2 = some 0.7) ∧
      compute_polymarket_bias [("m", [((5 : Date), some (0.7 : ℚ)), (9, some 0.7)])] none =
        [(5, some 0.2), (9, some 0.2)] := by
  have h : ∀ p ∈ [((5 : Date), some (0.7 : ℚ)), (9, some 0.7)], p.2 = some 0.7 := by simp
  refine ⟨h, ?_⟩
  have := c7_polymarket_recenters_without_zscore "m" [((5 : Date), some (0.7 : ℚ)), (9, some 0.7)] h
  simpa using this

/-- C9: daily sentiment aggregation returns an empty table on empty
input without error, and on a non-empty table missing any of the
required `date`, `channel`, `sentiment` columns it fails with a
validation error naming exactly the missing columns. -/
theorem c9_required_columns_validation (df : RawFrame) :
    (df.rows = [] → aggregate_daily_sentiment df = Except.ok ⟨[], []⟩) ∧
    (df.rows ≠ [] → requiredCols.filter (fun c => c ∉ df.cols) ≠ [] →
      aggregate_daily_sentiment df =
        Except.error (requiredCols.filter (fun c => c ∉ df.cols))) := by
  constructor
  · intro h
    unfold aggregate_daily_sentiment
    simp [h]
  · intro h1 h2
    have e1 : ¬ (df.rows.isEmpty = true) := by simpa [List.isEmpty_iff] using h1
    have e2 : ¬ ((requiredCols.filter (fun c => c ∉ df.cols)).isEmpty = true) := by
      simpa [List.isEmpty_iff] using h2
    simp only [aggregate_daily_sentiment]
    rw [if_neg e1, if_neg e2]

/-- C9 witness: one row, schema missing only `channel`. -/
theorem c9_witness :
    (RawFrame.mk ["date", "sentiment"] [(0, "news", 1)]).rows ≠ [] ∧
      requiredCols.filter (fun c => c ∉ (RawFrame.mk ["date", "sentiment"]
        [(0, "news", (1 : ℚ))]).cols) ≠ [] ∧
      aggregate_daily_sentiment (RawFrame.mk ["date", "sentiment"] [(0, "news", 1)]) =
        Except.error ["channel"] := by
  have h1 : (RawFrame.mk ["date", "sentiment"] [(0, "news", (1 : ℚ))]).rows ≠ [] := by simp
  have hfil : requiredCols.filter (fun c => c ∉ (RawFrame.mk ["date", "sentiment"]
      [(0, "news", (1 : ℚ))]).cols) = ["channel"] := by
    simp [requiredCols]
  have h2 : requiredCols.filter (fun c => c ∉ (RawFrame.mk ["date", "sentiment"]
      [(0, "news", (1 : ℚ))]).cols) ≠ [] := by
    rw [hfil]
    simp
  refine ⟨h1, h2, ?_⟩
  have := (c9_required_columns_validation
    (RawFrame.mk ["date", "sentiment"] [(0, "news", 1)])).2 h1 h2
  rw [hfil] at this
  exact this

theorem mergeUnion_nil_left (b : List Date) : mergeUnion [] b = b := by
  simp [mergeUnion]

theorem mergeUnion_nil_right (a : List Date) : mergeUnion a [] = a := by
  cases a <;> simp [mergeUnion]

theorem mergeUnion_cons_cons (x y : Date) (xs ys : List Date) :
    mergeUnion (x :: xs) (y :: ys) =
      if x < y then x :: mergeUnion xs (y :: ys)
      else if y < x then y :: mergeUnion (x :: xs) ys
      else x :: mergeUnion xs ys := by
  rw [mergeUnion]

theorem mem_mergeUnion (x : Date) : ∀ (a b : List Date),
    x ∈ mergeUnion a b ↔ x ∈ a ∨ x ∈ b
  | [], b => by simp [mergeUnion_nil_left]
  | a :: as, [] => by simp [mergeUnion_nil_right]
  | xh :: xt, yh :: yt => by
    rw [mergeUnion_cons_cons]
    by_cases h1 : xh < yh
    · rw [if_pos h1]
      simp only [List.mem_cons, mem_mergeUnion x xt (yh :: yt)]
      tauto
    · rw [if_neg h1]
      by_cases h2 : yh < xh
      · rw [if_pos h2]
        simp only [List.mem_cons, mem_mergeUnion x (xh :: xt) yt]
        tauto
      · rw [if_neg h2]
        have hxy : xh = yh := le_antisymm (not_lt.mp h2) (not_lt.mp h1)
        subst hxy
        simp only [List.mem_cons, mem_mergeUnion x xt yt]
        tauto
termination_by a b => a.length + b.length

theorem pairwise_mergeUnion : ∀ (a b : List Date), List.Pairwise (· < ·) a →
    List.Pairwise (· < ·) b → List.Pairwise (· < ·) (mergeUnion a b)
  | [], b, _, hb => by simpa [mergeUnion_nil_left] using hb
  | a :: as, [], ha, _ => by simpa [mergeUnion_nil_right] using ha
  | xh :: xt, yh :: yt, ha, hb => by
    rw [mergeUnion_cons_cons]
    rcases List.pairwise_cons.mp ha with ⟨hxall, hxt⟩
    rcases List.pairwise_cons.mp hb with ⟨hyall, hyt⟩
    by_cases h1 : xh < yh
    · rw [if_pos h1]
      refine List.pairwise_cons.mpr ⟨?_, pairwise_mergeUnion xt (yh :: yt) hxt hb⟩
      intro z hz
      rcases (mem_mergeUnion z xt (yh :: yt)).mp hz with hz1 | hz1
      · exact hxall z hz1
      · rcases List.mem_cons.mp hz1 with rfl | hz2
        · exact h1
        · exact h1.trans (hyall z hz2)
    · rw [if_neg h1]
      by_cases h2 : yh < xh
      · rw [if_pos h2]
        refine List.pairwise_cons.mpr ⟨?_, pairwise_mergeUnion (xh :: xt) yt ha hyt⟩
        intro z hz
        rcases (mem_mergeUnion z (xh :: xt) yt).mp hz with hz1 | hz1
        · rcases List.mem_cons.mp hz1 with rfl | hz2
          · exact h2
          · exact h2.trans (hxall z hz2)
        · exact hyall z hz1
      · rw [if_neg h2]
        have hxy : xh = yh := le_antisymm (not_lt.mp h2) (not_lt.mp h1)
        refine List.pairwise_cons.mpr ⟨?_, pairwise_mergeUnion xt yt hxt hyt⟩
        intro z hz
        rcases (mem_mergeUnion z xt yt).mp hz with hz1 | hz1
        · exact hxall z hz1
        · exact hxy ▸ hyall z hz1
termination_by a b => a.length + b.length

theorem alookup_eq_none_iff {α : Type} (s : List (Date × α)) (d : Date) :
    alookup s d = none ↔ d ∉ sIndex s := by
  induction s with
  | nil => simp [alookup, sIndex]
  | cons hd tl ih =>
    by_cases he : d = hd.1
    · simp [alookup, he, sIndex]
    · simp [alookup, he, sIndex, ih]

theorem filterMap_alookup_superset :
    ∀ (idx : List Date) (s : SeriesQ), List.Pairwise (· < ·) (sIndex s) →
      List.Pairwise (· < ·) idx → sIndex s ⊆ idx →
      idx.filterMap (fun d => (alookup s d).join) = s.filterMap Prod.snd := by
  intro idx
  induction idx with
  | nil =>
    intro s _ _ hsub
    have hnil : s = [] := by
      cases s with
      | nil => rfl
      | cons hd tl =>
        exact absurd (hsub (show hd.1 ∈ sIndex (hd :: tl) from
          List.mem_cons_self hd.1 (sIndex tl))) (List.not_mem_nil _)
    subst hnil
    rfl
  | cons d idx' ih =>
    intro s hs hidx hsub
    cases s with
    | nil => simp [alookup, List.filterMap_eq_nil_iff]
    | cons hd tl =>
      rcases List.pairwise_cons.mp hidx with ⟨hdall, hidx'⟩
      have hsIdx : sIndex (hd :: tl) = hd.1 :: sIndex tl := rfl
      rcases List.pairwise_cons.mp (hsIdx ▸ hs) with ⟨hhdall, hstl⟩
      by_cases he : d = hd.1
      · have hlook : alookup (hd :: tl) d = some hd.2 := by simp [alookup, he]
        have hsub' : sIndex tl ⊆ idx' := by
          intro k hk
          have hk2 : k ∈ d :: idx' := hsub (by rw [hsIdx]; exact List.mem_cons_of_mem _ hk)
          rcases List.mem_cons.mp hk2 with h3 | h3
          · exfalso
            have hlt := hhdall k hk
            rw [h3, he] at hlt
            exact lt_irrefl _ hlt
          · exact h3
        have htail : List.filterMap (fun d' => (alookup (hd :: tl) d').join) idx' =
            List.filterMap (fun d' => (alookup tl d').join) idx' := by
          apply List.filterMap_congr
          intro d' hd'
          have hne : d' ≠ hd.1 := by
            intro heq
            have hlt := hdall d' hd'
            rw [heq, ← he] at hlt
            exact lt_irrefl _ hlt
          simp [alookup, hne]
        have hrec : List.filterMap (fun d' => (alookup (hd :: tl) d').join) idx' =
            List.filterMap Prod.snd tl := by
          rw [htail]
          exact ih tl hstl hidx' hsub'
        rw [List.filterMap_cons, List.filterMap_cons, hlook]
        have hjoin : (some hd.2).join = hd.2 := rfl
        rw [hjoin]
        cases hv : hd.2 with
        | none => exact hrec
        | some v => rw [hrec]
      · have hdnone : alookup (hd :: tl) d = none := by
          rw [alookup_eq_none_iff, hsIdx]
          intro hmem
          rcases List.mem_cons.mp hmem with h3 | h3
          · exact he h3
          · have h4 : hd.1 < d := hhdall d h3
            have h5 : hd.1 ∈ d :: idx' :=
              hsub (by rw [hsIdx]; exact List.mem_cons_self _ _)
            rcases List.mem_cons.mp h5 with h6 | h6
            · exact he h6.symm
            · exact absurd (h4.trans (hdall _ h6)) (lt_irrefl _)
        have hsub2 : sIndex (hd :: tl) ⊆ idx' := by
          intro k hk
          have hk2 := hsub hk
          rcases List.mem_cons.mp hk2 with rfl | h3
          · exact absurd hk ((alookup_eq_none_iff _ _).mp hdnone)
          · exact h3
        rw [List.filterMap_cons, hdnone]
        simpa using ih (hd :: tl) hs hidx' hsub2

/-- C6: `combine_sentiment_scores` aligns news and social on the union
of their dates, fills the missing cells of each aligned series with that
series' own mean over its defined entries, and combines them as
`0.6 * news + 0.4 * social`; on the spec's example the filled values are
the respective means `0.4` and `0.2`. -/
theorem c6_combine_outer_join_own_mean_fill :
    (∀ news social : SeriesQ,
      List.Pairwise (· < ·) (sIndex news) → List.Pairwise (· < ·) (sIndex social) →
      combine_sentiment_scores news social 0.6 =
        (mergeUnion (sIndex news) (sIndex social)).map (fun d =>
          (d, qoadd (qomulC (fillWithMean (alignedAt news d) (qmean (vals news))) 0.6)
            (qomulC (fillWithMean (alignedAt social d) (qmean (vals social))) (1 - 0.6))))) ∧
    combine_sentiment_scores [(1, some 0.2), (2, none), (3, some 0.6)]
        [(1, none), (2, some 0.1), (3, some 0.3)] 0.6 =
      [(1, some 0.2), (2, some 0.28), (3, some 0.48)] ∧
    qmean (vals [((1 : Date), some (0.2 : ℚ)), (2, none), (3, some 0.6)]) = some 0.4 ∧
    qmean (vals [((1 : Date), none), (2, some (0.1 : ℚ)), (3, some 0.3)]) = some 0.2 := by
  refine ⟨?_, ?_, ?_, ?_⟩
  · intro news social hn hs
    have hpm := pairwise_mergeUnion _ _ hn hs
    have hvn : vals ((mergeUnion (sIndex news) (sIndex social)).map
        (fun d => (d, alignedAt news d))) = vals news := by
      unfold vals alignedAt
      rw [List.filterMap_map]
      exact filterMap_alookup_superset _ news hn hpm
        (fun x hx => (mem_mergeUnion x _ _).mpr (Or.inl hx))
    have hvs : vals ((mergeUnion (sIndex news) (sIndex social)).map
        (fun d => (d, alignedAt social d))) = vals social := by
      unfold vals alignedAt
      rw [List.filterMap_map]
      exact filterMap_alookup_superset _ social hs hpm
        (fun x hx => (mem_mergeUnion x _ _).mpr (Or.inr hx))
    simp only [combine_sentiment_scores]
    rw [List.map_map, List.map_map, List.zipWith_map, List.zipWith_same]
    simp only [Function.comp, hvn, hvs]
  · norm_num [combine_sentiment_scores, mergeUnion_cons_cons, mergeUnion_nil_left,
      mergeUnion_nil_right, sIndex, alignedAt, alookup, fillWithMean, qmean, vals,
      qoadd, qomulC, List.filterMap_cons]
  · norm_num [qmean, vals, List.filterMap_cons]
  · norm_num [qmean, vals, List.filterMap_cons]

/-- C6 witness: the spec's example inputs are strictly date-sorted, so
the general alignment-and-fill description applies to them. -/
theorem c6_witness :
    List.Pairwise (· < ·) (sIndex [((1 : Date), some (0.2 : ℚ)), (2, none), (3, some 0.6)]) ∧
      List.Pairwise (· < ·)
        (sIndex [((1 : Date), none), (2, some (0.1 : ℚ)), (3, some 0.3)]) ∧
      combine_sentiment_scores [((1 : Date), some (0.2 : ℚ)), (2, none), (3, some 0.6)]
          [((1 : Date), none), (2, some (0.1 : ℚ)), (3, some 0.3)] 0.6 =
        (mergeUnion (sIndex [((1 : Date), some (0.2 : ℚ)), (2, none), (3, some 0.6)])
            (sIndex [((1 : Date), none), (2, some (0.1 : ℚ)), (3, some 0.3)])).map (fun d =>
          (d, qoadd (qomulC (fillWithMean
                (alignedAt [((1 : Date), some (0.2 : ℚ)), (2, none), (3, some 0.6)] d)
                (qmean (vals [((1 : Date), some (0.2 : ℚ)), (2, none), (3, some 0.6)]))) 0.6)
            (qomulC (fillWithMean
                (alignedAt [((1 : Date), none), (2, some (0.1 : ℚ)), (3, some 0.3)] d)
                (qmean (vals [((1 : Date), none), (2, some (0.1 : ℚ)), (3, some 0.3)])))
              (1 - 0.6)))) := by
  have hn : List.Pairwise (· < ·)
      (sIndex [((1 : Date), some (0.2 : ℚ)), (2, none), (3, some 0.6)]) := by
    simp [sIndex]
  have hs : List.Pairwise (· < ·)
      (sIndex [((1 : Date), none), (2, some (0.1 : ℚ)), (3, some 0.3)]) := by
    simp [sIndex]
  exact ⟨hn, hs, c6_combine_outer_join_own_mean_fill.1 _ _ hn hs⟩

/-- C8: the polymarket divergence returns the empty series whenever
either input is empty — regardless of the other input — and whenever the
inner-join alignment of the two inputs is empty; no error is raised in
any of these cases. -/
theorem c8_divergence_empty_cases :
    (∀ (p q : SeriesR) (w : ℕ), p = [] ∨ q = [] →
      compute_polymarket_divergence p q w = []) ∧
    (∀ (p q : SeriesR) (w : ℕ), innerIndexP [p, q] = [] →
      compute_polymarket_divergence p q w = []) := by
  constructor
  · intro p q w h
    unfold compute_polymarket_divergence
    rcases h with rfl | rfl
    · simp
    · simp
  · intro p q w h
    unfold compute_polymarket_divergence
    by_cases he : (p.isEmpty = true) ∨ (q.isEmpty = true)
    · rw [if_pos he]
    · rw [if_neg he, h]
      simp

/-- C8 witness: an empty prevailing input against a non-trivial
polymarket series. -/
theorem c8_witness :
    (([] : SeriesR) = [] ∨ ([((0 : Date), some (1 : ℝ))] : SeriesR) = []) ∧
      compute_polymarket_divergence [] [((0 : Date), some (1 : ℝ))] 20 = [] := by
  exact ⟨Or.inl rfl,
    c8_divergence_empty_cases.1 [] [((0 : Date), some (1 : ℝ))] 20 (Or.inl rfl)⟩

theorem list_range_map_sum {M : Type} [AddCommMonoid M] (f : ℕ → M) (n : ℕ) :
    ((List.range n).map f).sum = ∑ j in Finset.range n, f j := by
  induction n with
  | zero => simp
  | succ k ih => rw [List.range_succ, List.map_append, List.sum_append, Finset.sum_range_succ, ih]; simp

theorem slice_eq_range_map (l : List ℝ) (a n : ℕ) (h : a + n ≤ l.length) :
    (l.drop a).take n = (List.range n).map (fun j => l.getD (a + j) 0) := by
  apply List.ext_getElem
  · simp
    omega
  · intro k h1 h2
    have hk : k < n := by simp at h1; omega
    have hak : a + k < l.length := by omega
    rw [List.getElem_take, List.getElem_drop]
    rw [List.getElem_map, List.getElem_range]
    rw [List.getD_eq_getElem _ _ hak]

theorem denom_range_pos (n : ℕ) (hn : 2 ≤ n) (c : ℚ) :
    0 < ∑ j in Finset.range n, ((j : ℚ) - c) ^ 2 := by
  apply Finset.sum_pos'
  · intro j _
    exact sq_nonneg _
  · by_cases hc : c = 0
    · refine ⟨1, Finset.mem_range.mpr (by omega), ?_⟩
      rw [hc]
      norm_num
    · refine ⟨0, Finset.mem_range.mpr (by omega), ?_⟩
      have h1 : ((0 : ℕ) : ℚ) - c = -c := by norm_num
      rw [h1]
      have h2 : (-c) ^ 2 = c ^ 2 := by ring
      rw [h2]
      exact lt_of_le_of_ne (sq_nonneg c) (Ne.symm (pow_ne_zero 2 hc))

theorem zip_range_map {α : Type} (n : ℕ) (g : ℕ → α) :
    (List.range n).zip ((List.range n).map g) = (List.range n).map (fun j => (j, g j)) := by
  nth_rewrite 1 [show List.range n = (List.range n).map id from (List.map_id _).symm]
  rw [List.zip_map']
  simp only [id_eq]

theorem trendEntry_spec (logp : List ℝ) (i : ℕ) (h1 : ¬ (i + 1 < 60))
    (h2 : i + 1 ≤ logp.length) :
    trendEntry logp 60 i =
      some (specOlsSlope 60 (fun j => logp.getD (i + 1 - 60 + j) 0) * 60) := by
  have ha : (i + 1 - 60) + 60 ≤ logp.length := by omega
  have hy : (logp.drop (i + 1 - 60)).take 60 =
      (List.range 60).map (fun j => logp.getD (i + 1 - 60 + j) 0) :=
    slice_eq_range_map logp (i + 1 - 60) 60 ha
  have hdpos : (0 : ℚ) < ((List.range 60).map
      (fun (j : ℕ) => ((j : ℚ) -
        ((List.range 60).map (fun (j : ℕ) => (j : ℚ))).sum / ((60 : ℕ) : ℚ)) ^ 2)).sum := by
    rw [list_range_map_sum]
    exact denom_range_pos 60 (by omega) _
  simp only [trendEntry]
  rw [if_neg h1, if_neg (ne_of_gt hdpos)]
  congr 1
  simp only [hy, zip_range_map, List.map_map, Function.comp_def, list_range_map_sum]
  simp only [specOlsSlope]
  push_cast
  ring_nf

/-- C5: `rolling_trend_slope` with window `60` equals, entrywise over
the price index, NaN when fewer than `60` trailing observations exist
and otherwise the ordinary-least-squares slope of `log(Close)` against
the integer axis `0..59` over the trailing window, scaled by `60`; in
particular every entry is NaN for a series shorter than `60` points. -/
theorem c5_rolling_trend_slope_ols :
    (∀ close : List (Date × ℚ),
      rolling_trend_slope close 60 =
        close.enum.map (fun q => (q.2.1,
          if q.1 + 1 < 60 then none
          else some (specOlsSlope 60
            (fun j => Real.log (((close.getD (q.1 + 1 - 60 + j) (0, 0)).2 : ℝ))) * 60)))) ∧
    (∀ close : List (Date × ℚ), close.length < 60 →
      ∀ p ∈ rolling_trend_slope close 60, p.2 = none) := by
  have hpt : ∀ (close : List (Date × ℚ)) (q : ℕ × Date × ℚ), q ∈ close.enum →
      trendEntry (close.map (fun p => Real.log ((p.2 : ℝ)))) 60 q.1 =
        if q.1 + 1 < 60 then none
        else some (specOlsSlope 60
          (fun j => Real.log (((close.getD (q.1 + 1 - 60 + j) (0, 0)).2 : ℝ))) * 60) := by
    intro close q hq
    have hqlt : q.1 < close.length := by
      rw [List.enum_eq_zip_range] at hq
      obtain ⟨q1, q2⟩ := q
      exact List.mem_range.mp (List.of_mem_zip hq).1
    by_cases hlt : q.1 + 1 < 60
    · rw [if_pos hlt]
      unfold trendEntry
      rw [if_pos hlt]
    · rw [if_neg hlt]
      have hlen : q.1 + 1 ≤ (close.map (fun p => Real.log ((p.2 : ℝ)))).length := by
        simp
        omega
      rw [trendEntry_spec _ q.1 hlt hlen]
      have hYeq : (fun j => (close.map (fun p => Real.log ((p.2 : ℝ)))).getD
            (q.1 + 1 - 60 + j) 0) =
          (fun j => Real.log (((close.getD (q.1 + 1 - 60 + j) (0, 0)).2 : ℝ))) := by
        funext j
        by_cases hj : q.1 + 1 - 60 + j < close.length
        · rw [List.getD_eq_getElem _ _ (by simpa using hj), List.getD_eq_getElem _ _ hj,
            List.getElem_map]
        · rw [List.getD_eq_default _ _ (by simpa using hj),
            List.getD_eq_default _ _ (by omega)]
          norm_num
      rw [hYeq]
  constructor
  · intro close
    unfold rolling_trend_slope
    apply List.map_congr_left
    intro q hq
    rw [hpt close q hq]
  · intro close hlen p hp
    unfold rolling_trend_slope at hp
    rcases List.mem_map.mp hp with ⟨q, hq, hpq⟩
    have hqlt : q.1 < close.length := by
      rw [List.enum_eq_zip_range] at hq
      obtain ⟨q1, q2⟩ := q
      exact List.mem_range.mp (List.of_mem_zip hq).1
    have : trendEntry (close.map (fun p => Real.log ((p.2 : ℝ)))) 60 q.1 = none := by
      unfold trendEntry
      rw [if_pos (by omega)]
    rw [← hpq]
    simpa using this

/-- C5 witness: a two-point close series is shorter than the window, so
every slope entry is undefined. -/
theorem c5_witness :
    ([((0 : Date), (1 : ℚ)), (1, 2)] : List (Date × ℚ)).length < 60 ∧
      ∀ p ∈ rolling_trend_slope [((0 : Date), (1 : ℚ)), (1, 2)] 60, p.2 = none := by
  refine ⟨by norm_num, ?_⟩
  exact c5_rolling_trend_slope_ols.2 [((0 : Date), (1 : ℚ)), (1, 2)] (by norm_num)

end FinBias
